import Mathlib

/-!
Verification of the aave-credit-score pipeline (src/src/credit.py).

Shallow embedding conventions:
- Python `Decimal` values, floats and pandas numeric columns are modelled as
  exact rationals (`Rat`).  The code performs `float(...)` conversions whose
  rounding we model as exact; none of the verified claims depends on binary
  floating-point rounding.  The one floating-point *special value* that
  matters, the NaN produced by a `0 / 0` pandas division, is modelled
  explicitly: `score_raw_code` returns `none` for it, and `score_wallets`
  models how `MinMaxScaler` propagates NaN (disregarded in fit, maintained
  in transform) and how the final `fillna(0.0)` then replaces every NaN
  score by 0.0, so the run still completes.
- JSON field values that feed `Decimal(...)` are modelled by `JVal`
  (string / number / null).  `Decimal` on a malformed string raises
  `decimal.InvalidOperation` (a subclass of `ArithmeticError`, *not* of
  `ValueError`), while `Decimal(None)` raises `TypeError`; the distinction is
  captured by `DecErr` because the source only catches
  `(ValueError, TypeError)`.  Decimal special values (NaN / Infinity
  literals) and unicode digits are outside the model: `parseDecimal` covers
  the finite decimal literals the spec talks about.
- `json.load` of the transactions file yields `List RawTx`; the `wallet_id`
  column of the wallets CSV yields `List String`.  File-existence and
  CSV-container errors are I/O-level and outside the model.
- Python's `set` of wallets is modelled by the duplicate-free list
  `validWallets csv` for membership, and the unspecified iteration order of
  `list(valid_wallets)` is an explicit parameter `order` constrained by
  `EnumOf` (CPython string hashing is randomized per process, so this order
  is genuinely not a function of the input files).
- `pd.Timestamp` values (seconds precision here) are modelled as `Int`
  seconds; `(t1 - t0).days` is `(t1 - t0) / 86400` (the difference is
  non-negative inside a group, where integer division agrees with floor).
-/

/-- Drop leading and trailing whitespace, as the `Decimal` constructor does. -/
def stripWs (l : List Char) : List Char :=
  ((l.dropWhile Char.isWhitespace).reverse.dropWhile Char.isWhitespace).reverse

def digVal (c : Char) : Nat := c.toNat - 48

def natOfDigits (l : List Char) : Nat := l.foldl (fun a c => a * 10 + digVal c) 0

/-- Split a character list at the first character satisfying `p`; `none` if absent. -/
def splitFirst (p : Char → Bool) : List Char → Option (List Char × List Char)
  | [] => none
  | c :: cs =>
    if p c then some ([], cs)
    else match splitFirst p cs with
      | none => none
      | some (a, b) => some (c :: a, b)

def parseSignChars : List Char → Int × List Char
  | '+' :: cs => (1, cs)
  | '-' :: cs => (-1, cs)
  | cs => (1, cs)

/-- Parse an unsigned decimal mantissa `digits[.digits]` (at least one digit);
returns the digit string value and the number of fractional digits. -/
def parseMantissa (cs : List Char) : Option (Nat × Nat) :=
  match splitFirst (fun c => c == '.') cs with
  | none =>
    if !cs.isEmpty && cs.all Char.isDigit then some (natOfDigits cs, 0) else none
  | some (ip, fp) =>
    if (!ip.isEmpty || !fp.isEmpty) && ip.all Char.isDigit && fp.all Char.isDigit then
      some (natOfDigits (ip ++ fp), fp.length)
    else none

/-- The finite-literal fragment of Python `Decimal(str)`:
`[+|-] (digits[.digits] | .digits) [(e|E)[+|-]digits]`, surrounding whitespace
allowed.  Returns `none` exactly when `Decimal` would raise `InvalidOperation`. -/
def parseDecimal (s : String) : Option Rat :=
  let cs := stripWs s.toList
  let (sg, cs1) := parseSignChars cs
  match splitFirst (fun c => c == 'e' || c == 'E') cs1 with
  | none =>
    match parseMantissa cs1 with
    | none => none
    | some (m, fl) => some (((sg * (m : Int) : Int) : Rat) / (10 : Rat) ^ fl)
  | some (mant, ex) =>
    match parseMantissa mant with
    | none => none
    | some (m, fl) =>
      let (esg, eds) := parseSignChars ex
      if !eds.isEmpty && eds.all Char.isDigit then
        some (((sg * (m : Int) : Int) : Rat) *
          (10 : Rat) ^ (esg * (natOfDigits eds : Int) - (fl : Int)))
      else none

/-- A JSON value appearing in an `actionData` field that is fed to `Decimal`. -/
inductive JVal where
  | jstr (s : String)
  | jnum (q : Rat)
  | jnull
  deriving DecidableEq, Repr

/-- Exceptions `Decimal(...)` can raise: `InvalidOperation` on a malformed
string (NOT a `ValueError`), `TypeError` on a non-numeric non-string input. -/
inductive DecErr where
  | invalidOperation
  | typeError
  deriving DecidableEq, Repr

/-- Python `Decimal(x)` on a JSON field value. -/
def pyDecimal : JVal → Except DecErr Rat
  | .jstr s =>
    match parseDecimal s with
    | some q => .ok q
    | none => .error .invalidOperation
  | .jnum q => .ok q
  | .jnull => .error .typeError

/-- The `timestamp` field: an integer, or a value `pd.to_datetime(..., unit="s",
errors="coerce")` turns into `NaT`. -/
inductive TsField where
  | intVal (n : Int)
  | bad
  deriving DecidableEq, Repr

structure ActionData where
  assetSymbol : Option String
  amount : Option JVal
  assetPriceUSD : Option JVal
  deriving DecidableEq, Repr

/-- A raw transaction record; `none` in a field means the JSON key is absent. -/
structure RawTx where
  userWallet : Option String
  timestamp : Option TsField
  action : Option String
  actionData : Option ActionData
  deriving DecidableEq, Repr

/-- One row of the canonical records DataFrame built by `load_data`. -/
structure CanonTx where
  wallet : String
  timestamp : Int
  action : String
  usd_value : Rat
  asset : String
  deriving DecidableEq, Repr

/-- Terminal errors of the pipeline (uncaught exceptions reaching `main`). -/
inductive PipeErr where
  | emptyJson
  | uncaughtDecimal
  deriving DecidableEq, Repr

/-- The `try: amount = Decimal(...); price = Decimal(...); usd_value = ...
except (ValueError, TypeError): usd_value = 0.0` block.  A `TypeError` is
caught and yields 0; an `InvalidOperation` is NOT caught and aborts the run. -/
def computeUsd (amountField priceField : JVal) : Except PipeErr Rat :=
  match pyDecimal amountField with
  | .error .typeError => .ok 0
  | .error .invalidOperation => .error .uncaughtDecimal
  | .ok amount =>
    match pyDecimal priceField with
    | .error .typeError => .ok 0
    | .error .invalidOperation => .error .uncaughtDecimal
    | .ok price =>
      .ok (if amount > 10 ^ 12 then amount * price / 10 ^ 18 else amount * price)

/-- Python `str.lower()`.  Implemented character-wise over the underlying
character list (rather than through `String.map`, whose well-founded recursion
does not reduce); the per-character lowering is `Char.toLower`, which covers
the ASCII identifiers and action names this pipeline handles. -/
def pyLower (s : String) : String :=
  ⟨s.data.map Char.toLower⟩

/-- The requested wallet set `set(wallet_df["wallet_id"].str.lower())`,
represented as a duplicate-free list (membership view of the Python set). -/
def validWallets (csv : List String) : List String :=
  (csv.map pyLower).dedup

/-- The body of the per-transaction loop in `load_data`: `ok none` models
`continue` (record skipped), `ok (some c)` an appended record, `error` an
uncaught exception. -/
def normalizeTx (valid : List String) (tx : RawTx) : Except PipeErr (Option CanonTx) :=
  let wallet := pyLower (tx.userWallet.getD "")
  if wallet == "" || !valid.contains wallet then .ok none
  else if tx.timestamp.isNone || tx.action.isNone || tx.actionData.isNone then .ok none
  else
    match tx.timestamp with
    | none => .ok none
    | some .bad => .ok none
    | some (.intVal ts) =>
      let action := pyLower (tx.action.getD "")
      let ad := tx.actionData.getD ⟨none, none, none⟩
      let asset := ad.assetSymbol.getD ""
      match computeUsd (ad.amount.getD (.jstr "0")) (ad.assetPriceUSD.getD (.jstr "0")) with
      | .error e => .error e
      | .ok usd => .ok (some ⟨wallet, ts, action, usd, asset⟩)

/-- Run `normalize` over the raw records in order, stopping at the first
uncaught exception. -/
def normalizeAll (valid : List String) : List RawTx → Except PipeErr (List CanonTx)
  | [] => .ok []
  | tx :: rest =>
    match normalizeTx valid tx with
    | .error e => .error e
    | .ok o =>
      match normalizeAll valid rest with
      | .error e => .error e
      | .ok r => .ok (match o with | some c => c :: r | none => r)

/-- Lexicographic strict comparison of character lists (the order Python uses
on strings, written structurally so that it evaluates). -/
def charListLt : List Char → List Char → Bool
  | _, [] => false
  | [], _ :: _ => true
  | a :: as, b :: bs =>
    if a < b then true
    else if b < a then false
    else charListLt as bs

def strLt (a b : String) : Bool := charListLt a.data b.data

/-- Sort key of `df.sort_values(by=["wallet", "timestamp"])`. -/
def txLe (a b : CanonTx) : Bool :=
  strLt a.wallet b.wallet || (a.wallet == b.wallet && a.timestamp ≤ b.timestamp)

def insertTx (a : CanonTx) : List CanonTx → List CanonTx
  | [] => [a]
  | b :: r => if txLe a b then a :: b :: r else b :: insertTx a r

def sortTxs : List CanonTx → List CanonTx
  | [] => []
  | a :: r => insertTx a (sortTxs r)

/-- `load_data`: terminal check that the JSON list is non-empty, then the
per-record loop, then the sort.  Returns the canonical records DataFrame. -/
def load_data (rawData : List RawTx) (csv : List String) : Except PipeErr (List CanonTx) :=
  if rawData.isEmpty then .error .emptyJson
  else
    match normalizeAll (validWallets csv) rawData with
    | .error e => .error e
    | .ok recs => .ok (sortTxs recs)

/-- One row of the features DataFrame. -/
structure FeatureVec where
  wallet : String
  num_tx : Nat
  active_days : Int
  avg_tx_usd : Rat
  deposit_total : Rat
  borrow_total : Rat
  repay_total : Rat
  liquidation_count : Nat
  borrow_deposit_ratio : Rat
  repay_ratio : Rat
  unique_assets : Nat
  deriving DecidableEq, Repr

def intMaxD : List Int → Int
  | [] => 0
  | a :: r => r.foldl max a

def intMinD : List Int → Int
  | [] => 0
  | a :: r => r.foldl min a

/-- Feature extraction for one wallet group (the body of the groupby loop). -/
def featuresOf (w : String) (g : List CanonTx) : FeatureVec :=
  let tss := g.map (·.timestamp)
  let deposits := g.filter (fun t => t.action == "supply" || t.action == "mint")
  let borrows := g.filter (fun t => t.action == "borrow")
  let repays := g.filter (fun t => t.action == "repay")
  let liquidations :=
    g.filter (fun t => t.action == "liquidationcall" || t.action == "liquidateborrow")
  let depositTotal := (deposits.map (·.usd_value)).sum
  let borrowTotal := (borrows.map (·.usd_value)).sum
  let repayTotal := (repays.map (·.usd_value)).sum
  { wallet := w
    num_tx := g.length
    active_days := (intMaxD tss - intMinD tss) / 86400 + 1
    avg_tx_usd := if g.length = 0 then 0 else (g.map (·.usd_value)).sum / (g.length : Rat)
    deposit_total := depositTotal
    borrow_total := borrowTotal
    repay_total := repayTotal
    liquidation_count := liquidations.length
    borrow_deposit_ratio := if depositTotal > 0 then borrowTotal / depositTotal else 0
    repay_ratio := if borrowTotal > 0 then repayTotal / borrowTotal else 0
    unique_assets := (g.map (·.asset)).dedup.length }

/-- Group keys of `df.groupby("wallet")`.  The input is sorted by wallet, so
first-occurrence order coincides with the sorted key order pandas uses; no
downstream result depends on the order of feature rows (the final merge is
keyed by wallet). -/
def walletsOf (txs : List CanonTx) : List String :=
  (txs.map (·.wallet)).dedup

def groupOf (txs : List CanonTx) (w : String) : List CanonTx :=
  txs.filter (fun t => t.wallet == w)

/-- `extract_features`: one `FeatureVec` per wallet present in the records. -/
def extract_features (txs : List CanonTx) : List FeatureVec :=
  (walletsOf txs).map (fun w => featuresOf w (groupOf txs w))

/-- Banker rounding (round half to even), the rounding mode of
`numpy`/pandas `.round`. -/
def roundHalfEven (q : Rat) : Int :=
  let f := ⌊q⌋
  let r := q - (f : Rat)
  if r < 1 / 2 then f
  else if r > 1 / 2 then f + 1
  else if f % 2 = 0 then f else f + 1

/-- Pandas `.round(2)`. -/
def round2 (q : Rat) : Rat := ((roundHalfEven (q * 100) : Int) : Rat) / 100

/-- `features_df["unique_assets"].max()` over the population. -/
def popUniqueMax (features : List FeatureVec) : Nat :=
  (features.map (·.unique_assets)).foldl max 0

/-- The raw-score expression of `score_wallets`, evaluated at a given value of
the population maximum of `unique_assets` (assuming that maximum is nonzero,
so that no division produces a NaN). -/
def scoreRawAt (popMax : Nat) (f : FeatureVec) : Rat :=
  f.repay_ratio * (35 / 100) +
  (1 - f.borrow_deposit_ratio) * (25 / 100) +
  (1 / (1 + (f.liquidation_count : Rat))) * (2 / 10) +
  ((f.num_tx : Rat) / (if f.active_days = 0 then 1 else (f.active_days : Rat))) * (15 / 100) +
  ((f.unique_assets : Rat) / (popMax : Rat)) * (5 / 100)

/-- The raw score the code computes, with the pandas float semantics of the
last term made explicit: when the population maximum of `unique_assets` is 0
every row's `unique_assets / max` is the float division `0 / 0 = NaN`, and the
raw score is NaN (`none`); there is no `max(..., 1)` guard in the source. -/
def score_raw_code (popMax : Nat) (f : FeatureVec) : Option Rat :=
  if popMax = 0 then none else some (scoreRawAt popMax f)

def listMinQ : List Rat → Rat
  | [] => 0
  | a :: r => r.foldl min a

def listMaxQ : List Rat → Rat
  | [] => 0
  | a :: r => r.foldl max a

/-- sklearn `_handle_zeros_in_scale`: a zero data range is replaced by 1. -/
def handleZeros (r : Rat) : Rat := if r = 0 then 1 else r

/-- The `(wallet, score_raw)` column pair of the features DataFrame. -/
def scoredOf (features : List FeatureVec) : List (String × Rat) :=
  features.map (fun f => (f.wallet, scoreRawAt (popUniqueMax features) f))

def rawsOf (features : List FeatureVec) : List Rat :=
  (scoredOf features).map (·.2)

/-- sklearn `MinMaxScaler` fit: `scale_ = (1000 - 0) / handleZeros (data_max - data_min)`. -/
def scaleOf (features : List FeatureVec) : Rat :=
  (1000 - 0) / handleZeros (listMaxQ (rawsOf features) - listMinQ (rawsOf features))

/-- sklearn `MinMaxScaler` fit: `min_ = feature_range_min - data_min * scale_`. -/
def mnOf (features : List FeatureVec) : Rat :=
  0 - listMinQ (rawsOf features) * scaleOf features

/-- The `(wallet, credit_score)` columns: `MinMaxScaler.transform`
(`x ↦ x * scale_ + min_`) followed by `.round(2)`. -/
def creditOf (features : List FeatureVec) : List (String × Rat) :=
  (scoredOf features).map
    (fun p => (p.1, round2 (p.2 * scaleOf features + mnOf features)))

/-- The left merge of `all_wallets` (one row per element of the set-iteration
order) with the credit scores on `wallet_id`, with missing scores filled by
0.0. -/
def mergeLeftFill (credit : List (String × Rat)) (order : List String) :
    List (String × Rat) :=
  order.flatMap (fun w =>
    match credit.filter (fun p => p.1 == w) with
    | [] => [(w, (0 : Rat))]
    | l => l.map (fun p => (w, p.2)))

/-- `score_wallets`: on an empty features DataFrame, zero scores for the
wallet list; otherwise raw scores, `MinMaxScaler(feature_range=(0, 1000))`
fit-transform, `.round(2)`, and the left merge.  When
`features_df["unique_assets"].max()` is 0 every row's raw score is the float
NaN of the `0 / 0` division; `MinMaxScaler` (which allows NaN: disregarded in
fit, maintained in transform) then yields NaN credit scores, `.round(2)`
keeps them NaN, and the final `fillna(0.0)` replaces every NaN score by 0.0 —
so that branch is the left merge over feature rows whose scores are all 0. -/
def score_wallets (features : List FeatureVec) (order : List String) :
    Except PipeErr (List (String × Rat)) :=
  match features with
  | [] => .ok (order.map (fun w => (w, (0 : Rat))))
  | f0 :: rest =>
    if popUniqueMax (f0 :: rest) = 0 then
      .ok (mergeLeftFill ((f0 :: rest).map (fun f => (f.wallet, (0 : Rat)))) order)
    else .ok (mergeLeftFill (creditOf (f0 :: rest)) order)

/-- The composition `load_data` → `extract_features` → `score_wallets` run by
`main`; `order` is the iteration order of `list(valid_wallets)`. -/
def pipeline (rawData : List RawTx) (csv : List String) (order : List String) :
    Except PipeErr (List (String × Rat)) :=
  match load_data rawData csv with
  | .error e => .error e
  | .ok txs => score_wallets (extract_features txs) order

/-- `order` is a possible iteration order of the Python set of valid wallets
built from `csv`. -/
def EnumOf (csv order : List String) : Prop :=
  order.Nodup ∧ ∀ w, w ∈ order ↔ w ∈ validWallets csv

/-- Wallets that still own at least one canonical transaction after
normalization and filtering (empty when `load_data` errors). -/
def survivingWallets (rawData : List RawTx) (csv : List String) : List String :=
  match load_data rawData csv with
  | .ok txs => (txs.map (·.wallet)).dedup
  | .error _ => []

/-- The spec formula for the raw score (section 4.4), with its
`max(active_days, 1)` and `max(unique_assets_population_max, 1)` guards. -/
def score_raw_spec (popMax : Nat) (f : FeatureVec) : Rat :=
  (35 / 100) * f.repay_ratio +
  (25 / 100) * (1 - f.borrow_deposit_ratio) +
  (20 / 100) * (1 / (1 + (f.liquidation_count : Rat))) +
  (15 / 100) * ((f.num_tx : Rat) / ((max f.active_days 1 : Int) : Rat)) +
  (5 / 100) * ((f.unique_assets : Rat) / ((max popMax 1 : Nat) : Rat))

/-- The spec reading of `unique_assets` (section 4.3): distinct NON-EMPTY
asset symbols. -/
def uniqueAssetsSpec (g : List CanonTx) : Nat :=
  ((g.map (·.asset)).filter (fun a => a ≠ "")).dedup.length

/-! ### Generic list lemmas -/

lemma foldl_min_le_init {α : Type} [LinearOrder α] (l : List α) (a : α) :
    l.foldl min a ≤ a := by
  induction l generalizing a with
  | nil => exact le_refl a
  | cons c r ih => exact le_trans (ih (min a c)) (min_le_left a c)

lemma foldl_min_le_mem {α : Type} [LinearOrder α] {x : α} {l : List α} (a : α)
    (h : x ∈ l) : l.foldl min a ≤ x := by
  induction l generalizing a with
  | nil => cases h
  | cons c r ih =>
    rcases List.mem_cons.mp h with rfl | hx
    · exact le_trans (foldl_min_le_init r (min a x)) (min_le_right a x)
    · exact ih (min a c) hx

lemma init_le_foldl_max {α : Type} [LinearOrder α] (l : List α) (a : α) :
    a ≤ l.foldl max a := by
  induction l generalizing a with
  | nil => exact le_refl a
  | cons c r ih => exact le_trans (le_max_left a c) (ih (max a c))

lemma mem_le_foldl_max {α : Type} [LinearOrder α] {x : α} {l : List α} (a : α)
    (h : x ∈ l) : x ≤ l.foldl max a := by
  induction l generalizing a with
  | nil => cases h
  | cons c r ih =>
    rcases List.mem_cons.mp h with rfl | hx
    · exact le_trans (le_max_right a x) (init_le_foldl_max r (max a x))
    · exact ih (max a c) hx

lemma listMinQ_le {x : Rat} {l : List Rat} (h : x ∈ l) : listMinQ l ≤ x := by
  cases l with
  | nil => cases h
  | cons a r =>
    rcases List.mem_cons.mp h with rfl | hx
    · exact foldl_min_le_init r x
    · exact foldl_min_le_mem a hx

lemma le_listMaxQ {x : Rat} {l : List Rat} (h : x ∈ l) : x ≤ listMaxQ l := by
  cases l with
  | nil => cases h
  | cons a r =>
    rcases List.mem_cons.mp h with rfl | hx
    · exact init_le_foldl_max r x
    · exact mem_le_foldl_max a hx

lemma foldl_min_const {r : Rat} {l : List Rat} (h : ∀ x ∈ l, x = r) :
    l.foldl min r = r := by
  induction l with
  | nil => rfl
  | cons c t ih =>
    have hc : c = r := h c (List.mem_cons_self c t)
    have ht : ∀ x ∈ t, x = r := fun x hx => h x (List.mem_cons_of_mem c hx)
    simp [hc, ih ht]

lemma listMinQ_const {r : Rat} {l : List Rat} (hne : l ≠ [])
    (h : ∀ x ∈ l, x = r) : listMinQ l = r := by
  cases l with
  | nil => exact absurd rfl hne
  | cons a t =>
    have ha : a = r := h a (List.mem_cons_self a t)
    have ht : ∀ x ∈ t, x = r := fun x hx => h x (List.mem_cons_of_mem a hx)
    simpa [listMinQ, ha] using foldl_min_const ht

/-! ### Lemmas about the keyed left merge -/

lemma filterKey_eq_nil {credit : List (String × Rat)} {w : String}
    (h : w ∉ credit.map Prod.fst) : credit.filter (fun p => p.1 == w) = [] := by
  apply List.filter_eq_nil_iff.mpr
  intro p hp
  simp only [beq_iff_eq]
  intro hpw
  exact h (List.mem_map.mpr ⟨p, hp, hpw⟩)

lemma length_filterKey_le_one {credit : List (String × Rat)}
    (hn : (credit.map Prod.fst).Nodup) (w : String) :
    (credit.filter (fun p => p.1 == w)).length ≤ 1 := by
  induction credit with
  | nil => simp
  | cons p r ih =>
    simp only [List.map_cons, List.nodup_cons] at hn
    rw [List.filter_cons]
    by_cases hpw : p.1 = w
    · have hr : r.filter (fun q => q.1 == w) = [] := by
        apply filterKey_eq_nil
        rw [← hpw]
        exact hn.1
      simp [hpw, hr]
    · have : (p.1 == w) = false := beq_eq_false_iff_ne.mpr hpw
      simp only [this, if_neg, Bool.false_eq_true, not_false_eq_true, if_false]
      exact ih hn.2

lemma mergeLeftFill_nil (credit : List (String × Rat)) :
    mergeLeftFill credit [] = [] := rfl

lemma mergeLeftFill_cons (credit : List (String × Rat)) (w : String)
    (order : List String) :
    mergeLeftFill credit (w :: order) =
      (match credit.filter (fun p => p.1 == w) with
       | [] => [(w, (0 : Rat))]
       | l => l.map (fun p => (w, p.2))) ++ mergeLeftFill credit order := by
  simp [mergeLeftFill]

lemma block_map_fst {credit : List (String × Rat)}
    (hn : (credit.map Prod.fst).Nodup) (w : String) :
    (((match credit.filter (fun p => p.1 == w) with
      | [] => [(w, (0 : Rat))]
      | l => l.map (fun p => (w, p.2)) : List (String × Rat))).map Prod.fst) = [w] := by
  cases hfil : credit.filter (fun p => p.1 == w) with
  | nil => rfl
  | cons p ps =>
    have hlen := length_filterKey_le_one hn w
    rw [hfil] at hlen
    simp only [List.length_cons] at hlen
    have hps : ps = [] := List.length_eq_zero.mp (by omega)
    subst hps
    rfl

lemma mergeLeftFill_map_fst {credit : List (String × Rat)}
    (hn : (credit.map Prod.fst).Nodup) (order : List String) :
    (mergeLeftFill credit order).map Prod.fst = order := by
  induction order with
  | nil => rfl
  | cons w o ih =>
    rw [mergeLeftFill_cons, List.map_append, block_map_fst hn, ih]
    rfl

lemma mergeLeftFill_mem_zero {credit : List (String × Rat)} {w : String}
    {order : List String} (hw : w ∈ order) (hnf : w ∉ credit.map Prod.fst) :
    (w, (0 : Rat)) ∈ mergeLeftFill credit order := by
  induction order with
  | nil => cases hw
  | cons u o ih =>
    rw [mergeLeftFill_cons]
    rcases List.mem_cons.mp hw with rfl | huo
    · rw [filterKey_eq_nil hnf]
      exact List.mem_append_left _ (List.mem_singleton_self _)
    · exact List.mem_append_right _ (ih huo)

lemma mergeLeftFill_snd_cases {credit : List (String × Rat)}
    {order : List String} {p : String × Rat}
    (hp : p ∈ mergeLeftFill credit order) :
    p.2 = 0 ∨ ∃ q ∈ credit, p.2 = q.2 := by
  induction order with
  | nil => cases hp
  | cons u o ih =>
    rw [mergeLeftFill_cons] at hp
    rcases List.mem_append.mp hp with hblk | hrest
    · cases hfil : credit.filter (fun q => q.1 == u) with
      | nil =>
        rw [hfil] at hblk
        rcases List.mem_singleton.mp hblk with rfl
        exact Or.inl rfl
      | cons x xs =>
        rw [hfil] at hblk
        rcases List.mem_map.mp hblk with ⟨q, hq, rfl⟩
        have hqc : q ∈ credit := List.mem_of_mem_filter (hfil ▸ hq)
        exact Or.inr ⟨q, hqc, rfl⟩
    · exact ih hrest

lemma mergeLeftFill_perm (credit : List (String × Rat)) {o1 o2 : List String}
    (h : o1.Perm o2) :
    (mergeLeftFill credit o1).Perm (mergeLeftFill credit o2) :=
  h.flatMap_right _

/-! ### Lemmas about the scoring stages -/

lemma creditOf_map_fst (fs : List FeatureVec) :
    (creditOf fs).map Prod.fst = fs.map (·.wallet) := by
  simp [creditOf, scoredOf, List.map_map, Function.comp]

lemma creditOf_snd {fs : List FeatureVec} {q : String × Rat} (h : q ∈ creditOf fs) :
    ∃ x ∈ rawsOf fs, q.2 = round2 (x * scaleOf fs + mnOf fs) := by
  rcases List.mem_map.mp h with ⟨p, hp, rfl⟩
  exact ⟨p.2, List.mem_map.mpr ⟨p, hp, rfl⟩, rfl⟩

lemma featuresOf_wallet (w : String) (g : List CanonTx) :
    (featuresOf w g).wallet = w := rfl

lemma extract_features_map_wallet (txs : List CanonTx) :
    (extract_features txs).map (·.wallet) = walletsOf txs := by
  rw [extract_features, List.map_map]
  have h : ((fun x : FeatureVec => x.wallet) ∘ fun w => featuresOf w (groupOf txs w)) = id := by
    funext w
    rfl
  rw [h, List.map_id]

lemma unique_assets_pos {txs : List CanonTx} {fv : FeatureVec}
    (h : fv ∈ extract_features txs) : 1 ≤ fv.unique_assets := by
  rcases List.mem_map.mp h with ⟨w, hw, rfl⟩
  have hw2 : w ∈ (txs.map (·.wallet)) := List.mem_dedup.mp hw
  rcases List.mem_map.mp hw2 with ⟨t, ht, hwt⟩
  have htg : t ∈ groupOf txs w := by
    apply List.mem_filter.mpr
    refine ⟨ht, ?_⟩
    rw [hwt]
    exact beq_self_eq_true w
  have hma : t.asset ∈ (groupOf txs w).map (·.asset) := List.mem_map.mpr ⟨t, htg, rfl⟩
  have hmd : t.asset ∈ ((groupOf txs w).map (·.asset)).dedup := List.mem_dedup.mpr hma
  have : ((groupOf txs w).map (·.asset)).dedup ≠ [] := List.ne_nil_of_mem hmd
  show 1 ≤ ((groupOf txs w).map (·.asset)).dedup.length
  have := List.length_pos.mpr this
  omega

lemma popUniqueMax_mem_le {fs : List FeatureVec} {f : FeatureVec} (h : f ∈ fs) :
    f.unique_assets ≤ popUniqueMax fs :=
  mem_le_foldl_max 0 (List.mem_map.mpr ⟨f, h, rfl⟩)

lemma extract_popUniqueMax_ne {txs : List CanonTx} {f0 : FeatureVec}
    {rest : List FeatureVec} (h : extract_features txs = f0 :: rest) :
    popUniqueMax (f0 :: rest) ≠ 0 := by
  have h1 : 1 ≤ f0.unique_assets :=
    unique_assets_pos (h ▸ List.mem_cons_self f0 rest)
  have h2 : f0.unique_assets ≤ popUniqueMax (f0 :: rest) :=
    popUniqueMax_mem_le (List.mem_cons_self f0 rest)
  omega

lemma zeroed_map_fst (fs : List FeatureVec) :
    (fs.map (fun f => (f.wallet, (0 : Rat)))).map Prod.fst = fs.map (·.wallet) := by
  rw [List.map_map]
  congr 1

lemma score_wallets_ok {fs : List FeatureVec} {order : List String}
    {out : List (String × Rat)} (h : score_wallets fs order = .ok out) :
    (fs = [] ∧ out = order.map (fun w => (w, (0 : Rat)))) ∨
    (fs ≠ [] ∧ popUniqueMax fs = 0 ∧
      out = mergeLeftFill (fs.map (fun f => (f.wallet, (0 : Rat)))) order) ∨
    (fs ≠ [] ∧ popUniqueMax fs ≠ 0 ∧ out = mergeLeftFill (creditOf fs) order) := by
  cases fs with
  | nil =>
    left
    refine ⟨rfl, ?_⟩
    have := Except.ok.inj h
    exact this.symm
  | cons f0 rest =>
    right
    simp only [score_wallets] at h
    by_cases hp : popUniqueMax (f0 :: rest) = 0
    · rw [if_pos hp] at h
      exact Or.inl ⟨List.cons_ne_nil f0 rest, hp, (Except.ok.inj h).symm⟩
    · rw [if_neg hp] at h
      exact Or.inr ⟨List.cons_ne_nil f0 rest, hp, (Except.ok.inj h).symm⟩

lemma pipeline_ok_cases {raw : List RawTx} {csv order : List String}
    {out : List (String × Rat)} (h : pipeline raw csv order = .ok out) :
    ∃ txs, load_data raw csv = .ok txs ∧
      score_wallets (extract_features txs) order = .ok out := by
  unfold pipeline at h
  cases hld : load_data raw csv with
  | error e => rw [hld] at h; cases h
  | ok txs => rw [hld] at h; exact ⟨txs, rfl, h⟩

lemma pipeline_keys {raw : List RawTx} {csv order : List String}
    {out : List (String × Rat)} (h : pipeline raw csv order = .ok out) :
    out.map Prod.fst = order := by
  obtain ⟨txs, _, hsw⟩ := pipeline_ok_cases h
  rcases score_wallets_ok hsw with ⟨_, rfl⟩ | ⟨_, _, rfl⟩ | ⟨_, _, rfl⟩
  · rw [List.map_map]
    have h2 : (Prod.fst ∘ fun w : String => (w, (0 : Rat))) = id := by
      funext w
      rfl
    rw [h2, List.map_id]
  · apply mergeLeftFill_map_fst
    rw [zeroed_map_fst, extract_features_map_wallet]
    exact List.nodup_dedup _
  · apply mergeLeftFill_map_fst
    rw [creditOf_map_fst, extract_features_map_wallet]
    exact List.nodup_dedup _

/-! ### Rounding and rescaling bounds -/

lemma roundHalfEven_nonneg {q : Rat} (h : 0 ≤ q) : 0 ≤ roundHalfEven q := by
  have hf : 0 ≤ ⌊q⌋ := Int.floor_nonneg.mpr h
  simp only [roundHalfEven]
  split_ifs <;> omega

lemma roundHalfEven_le {q : Rat} {B : Int} (h : q ≤ (B : Rat)) :
    roundHalfEven q ≤ B := by
  have hfB : ⌊q⌋ ≤ B := by
    have := Int.floor_le_floor h
    rwa [Int.floor_intCast] at this
  have hfle : (⌊q⌋ : Rat) ≤ q := Int.floor_le q
  simp only [roundHalfEven]
  split_ifs with h1 h2 h3
  · exact hfB
  · have hhalf : (1 : Rat) / 2 ≤ q - (⌊q⌋ : Rat) := not_lt.mp h1
    have : (⌊q⌋ : Rat) < (B : Rat) := by linarith
    have : ⌊q⌋ < B := by exact_mod_cast this
    omega
  · exact hfB
  · have hhalf : (1 : Rat) / 2 ≤ q - (⌊q⌋ : Rat) := not_lt.mp h1
    have : (⌊q⌋ : Rat) < (B : Rat) := by linarith
    have : ⌊q⌋ < B := by exact_mod_cast this
    omega

lemma round2_bounds {q : Rat} (h0 : 0 ≤ q) (h1 : q ≤ 1000) :
    0 ≤ round2 q ∧ round2 q ≤ 1000 := by
  have ha : 0 ≤ roundHalfEven (q * 100) := roundHalfEven_nonneg (by linarith)
  have hb : roundHalfEven (q * 100) ≤ (100000 : Int) := by
    apply roundHalfEven_le
    push_cast
    linarith
  constructor
  · apply div_nonneg _ (by norm_num)
    exact_mod_cast ha
  · rw [round2, div_le_iff₀ (by norm_num : (0 : Rat) < 100)]
    calc ((roundHalfEven (q * 100) : Int) : Rat) ≤ ((100000 : Int) : Rat) := by
          exact_mod_cast hb
      _ = 1000 * 100 := by norm_num

lemma transform_bounds {fs : List FeatureVec} {x : Rat} (hx : x ∈ rawsOf fs) :
    0 ≤ x * scaleOf fs + mnOf fs ∧ x * scaleOf fs + mnOf fs ≤ 1000 := by
  have hmin : listMinQ (rawsOf fs) ≤ x := listMinQ_le hx
  have hmax : x ≤ listMaxQ (rawsOf fs) := le_listMaxQ hx
  have hval : x * scaleOf fs + mnOf fs = (x - listMinQ (rawsOf fs)) * scaleOf fs := by
    rw [mnOf]
    ring
  by_cases h0 : listMaxQ (rawsOf fs) - listMinQ (rawsOf fs) = 0
  · have hxeq : x = listMinQ (rawsOf fs) := by linarith
    rw [hval, hxeq]
    norm_num
  · have hpos : 0 < listMaxQ (rawsOf fs) - listMinQ (rawsOf fs) := by
      rcases lt_or_eq_of_le (by linarith : listMinQ (rawsOf fs) ≤ listMaxQ (rawsOf fs)) with hlt | heq
      · linarith
      · exact absurd (by linarith) h0
    have hscale : scaleOf fs = 1000 / (listMaxQ (rawsOf fs) - listMinQ (rawsOf fs)) := by
      rw [scaleOf, handleZeros, if_neg h0]
      norm_num
    have hscalepos : 0 < scaleOf fs := by
      rw [hscale]
      positivity
    constructor
    · rw [hval]
      have := mul_nonneg (by linarith : (0 : Rat) ≤ x - listMinQ (rawsOf fs)) (le_of_lt hscalepos)
      linarith
    · rw [hval]
      have hle : (x - listMinQ (rawsOf fs)) * scaleOf fs ≤
          (listMaxQ (rawsOf fs) - listMinQ (rawsOf fs)) * scaleOf fs :=
        mul_le_mul_of_nonneg_right (by linarith) (le_of_lt hscalepos)
      have heq : (listMaxQ (rawsOf fs) - listMinQ (rawsOf fs)) * scaleOf fs = 1000 := by
        rw [hscale]
        field_simp
      linarith

lemma filterKey_length_eq_count (l : List (String × Rat)) (w : String) :
    (l.filter (fun p => p.1 == w)).length = (l.map Prod.fst).count w := by
  induction l with
  | nil => rfl
  | cons p r ih =>
    rw [List.filter_cons, List.map_cons]
    by_cases hpw : p.1 = w
    · have hb : (p.1 == w) = true := beq_iff_eq.mpr hpw
      rw [hb, if_pos rfl, List.length_cons, ih, List.count_cons, hb]
      simp
    · have hb : (p.1 == w) = false := beq_eq_false_iff_ne.mpr hpw
      rw [hb]
      simp only [Bool.false_eq_true, if_false]
      rw [ih, List.count_cons, hb]
      simp

lemma survivingWallets_eq {raw : List RawTx} {csv : List String} {txs : List CanonTx}
    (h : load_data raw csv = .ok txs) :
    survivingWallets raw csv = walletsOf txs := by
  rw [survivingWallets, h, walletsOf]

lemma enumOf_validWallets (csv : List String) : EnumOf csv (validWallets csv) :=
  ⟨List.nodup_dedup _, fun _ => Iff.rfl⟩

/-! ### Concrete fixtures used by counterexamples and witnesses -/

def mkAD (sym : String) (amt price : JVal) : ActionData :=
  ⟨some sym, some amt, some price⟩

def mkTx (w : String) (ts : Int) (act : String) (amt price : JVal) (sym : String) : RawTx :=
  ⟨some w, some (.intVal ts), some act, some (mkAD sym amt price)⟩

/-- A well-behaved wallet, a liquidated wallet, plus (in `csvFixA`) a wallet
with no transactions. -/
def rawFixA : List RawTx :=
  [mkTx "0xAbC" 0 "Supply" (.jstr "1000") (.jstr "1") "ETH",
   mkTx "0xabc" 10 "borrow" (.jstr "500") (.jstr "1") "DAI",
   mkTx "0xabc" 20 "repay" (.jstr "500") (.jstr "1") "DAI",
   mkTx "0xdef" 5 "liquidationcall" (.jstr "100") (.jstr "1") "ETH"]

def csvFixA : List String := ["0xAbC", "0xDeF", "0xGhi"]

/-- A single feature row whose `unique_assets` is 0 (reachable for arbitrary
feature populations, the domain the spec formula quantifies over). -/
def fvZero : FeatureVec :=
  ⟨"a", 0, 1, 0, 0, 0, 0, 0, 0, 0, 0⟩

/-- A single feature row with one observed asset. -/
def fvOne : FeatureVec :=
  ⟨"a", 1, 1, 10, 10, 0, 0, 0, 0, 0, 1⟩

/-- Decidable equality for `Except`, so concrete pipeline runs can be checked
by `decide`. -/
instance decEqExcept {e a : Type} [DecidableEq e] [DecidableEq a] :
    DecidableEq (Except e a)
  | .ok u, .ok v =>
    if h : u = v then isTrue (congrArg Except.ok h)
    else isFalse (fun hh => h (Except.ok.inj hh))
  | .error u, .error v =>
    if h : u = v then isTrue (congrArg Except.error h)
    else isFalse (fun hh => h (Except.error.inj hh))
  | .ok _, .error _ => isFalse (fun hh => Except.noConfusion hh)
  | .error _, .ok _ => isFalse (fun hh => Except.noConfusion hh)

section ClaimTheorems

attribute [local semireducible] Rat.mul Rat.add Rat.sub Rat.inv Rat.ofScientific

lemma round2_zero : round2 0 = 0 := by decide

/-- C1: for every requested wallet set (enumerated by `order`) and every
transactions input on which the run completes, the output has exactly the
requested wallets as keys in iteration order, hence exactly one record per
requested wallet (no duplicates, no omissions), and every requested wallet
with no surviving transactions receives score 0.0. -/
theorem C1_one_record_per_wallet (rawData : List RawTx) (csv order : List String)
    (out : List (String × Rat)) (ho : EnumOf csv order)
    (h : pipeline rawData csv order = .ok out) :
    out.map Prod.fst = order ∧
    (∀ w ∈ validWallets csv, (out.filter (fun p => p.1 == w)).length = 1) ∧
    (∀ w ∈ order, w ∉ survivingWallets rawData csv → (w, (0 : Rat)) ∈ out) := by
  refine ⟨pipeline_keys h, ?_, ?_⟩
  · intro w hw
    have hword : w ∈ order := (ho.2 w).mpr hw
    rw [filterKey_length_eq_count, pipeline_keys h]
    exact List.count_eq_one_of_mem ho.1 hword
  · intro w hw hsurv
    obtain ⟨txs, hld, hsw⟩ := pipeline_ok_cases h
    rw [survivingWallets_eq hld] at hsurv
    rcases score_wallets_ok hsw with ⟨_, rfl⟩ | ⟨_, _, rfl⟩ | ⟨_, _, rfl⟩
    · exact List.mem_map.mpr ⟨w, hw, rfl⟩
    · apply mergeLeftFill_mem_zero hw
      rw [zeroed_map_fst, extract_features_map_wallet]
      exact hsurv
    · apply mergeLeftFill_mem_zero hw
      rw [creditOf_map_fst, extract_features_map_wallet]
      exact hsurv

/-- C1 witness: a concrete three-wallet run (one wallet case-folded, one
liquidated, one with no transactions) instantiating the theorem. -/
theorem C1_witness :
    ([("0xabc", (1000 : Rat)), ("0xdef", 0), ("0xghi", 0)].map Prod.fst
        = validWallets csvFixA) ∧
    (([("0xabc", (1000 : Rat)), ("0xdef", 0), ("0xghi", 0)].filter
        (fun p => p.1 == "0xabc")).length = 1) ∧
    (("0xghi", (0 : Rat)) ∈ [("0xabc", (1000 : Rat)), ("0xdef", 0), ("0xghi", 0)]) := by
  have h := C1_one_record_per_wallet rawFixA csvFixA (validWallets csvFixA)
    [("0xabc", 1000), ("0xdef", 0), ("0xghi", 0)]
    (enumOf_validWallets csvFixA) (by decide)
  exact ⟨h.1, h.2.1 "0xabc" (by decide), h.2.2 "0xghi" (by decide) (by decide)⟩

/-- C2: the claim says a transaction whose `amount` string fails to parse is
kept with `usd_value = 0` and the batch continues; in the code the
`Decimal` constructor raises `decimal.InvalidOperation`, which the
`except (ValueError, TypeError)` clause does not catch, so the whole run
aborts.  Evaluated at the spec's own failing input
(`amount = "not_a_number"`). -/
theorem C2_invalid_amount_aborts :
    pyDecimal (.jstr "not_a_number") = .error .invalidOperation ∧
    pipeline [mkTx "0xabc" 1 "supply" (.jstr "not_a_number") (.jstr "1") "eth"]
      ["0xabc"] ["0xabc"] = .error .uncaughtDecimal := by decide

/-- C3 counterexample: with an empty transactions input and the non-empty
wallet set containing wallet a, the run aborts with the terminal
`ValueError` raised for an empty JSON list instead of completing. -/
theorem C3_counterexample :
    pipeline [] ["a"] ["a"] = .error .emptyJson := by decide

/-- C3 (amended): an empty transactions input always aborts with the
terminal empty-JSON error; the all-zero output arises instead when the input
is non-empty but no transaction survives the Normalizer. -/
theorem C3_amended :
    (∀ csv order : List String, pipeline [] csv order = .error .emptyJson) ∧
    (∀ (rawData : List RawTx) (csv order : List String),
      load_data rawData csv = .ok [] →
      pipeline rawData csv order = .ok (order.map (fun w => (w, (0 : Rat))))) := by
  constructor
  · intro csv order
    rfl
  · intro rawData csv order h
    unfold pipeline
    rw [h]
    rfl

/-- C3 witness: a non-empty transactions input whose only record belongs to
an unrequested wallet completes with score 0.0 for the requested wallet. -/
theorem C3_witness :
    pipeline [mkTx "zzz" 5 "supply" (.jstr "1") (.jstr "1") "e"] ["a"] ["a"]
      = .ok [("a", (0 : Rat))] :=
  C3_amended.2 [mkTx "zzz" 5 "supply" (.jstr "1") (.jstr "1") "e"] ["a"] ["a"] (by decide)

/-- C4 counterexample: on a population whose only wallet has
`unique_assets = 0`, the code's raw score is the NaN of the unguarded
`0 / 0` division, while the spec formula with its `max(..., 1)` guard yields
the well-defined value 9/20; so the Scorer does not compute the spec
formula there — the NaN propagates through `MinMaxScaler` and `fillna(0.0)`
turns it into the completed score 0.0. -/
theorem C4_counterexample :
    score_raw_code (popUniqueMax [fvZero]) fvZero = none ∧
    score_raw_spec (popUniqueMax [fvZero]) fvZero = 9 / 20 ∧
    score_wallets [fvZero] ["a"] = .ok [("a", 0)] := by decide

/-- C4 (amended): whenever the population maximum of `unique_assets` is at
least 1 and `active_days` is non-negative — which holds for every population
the Feature Aggregator produces — the code's raw score equals the spec
formula; the `max(..., 1)` guard of the spec's last term is absent from the
code, so when every wallet's `unique_assets` is 0 the raw scores are NaN
instead of the guarded values, and after `MinMaxScaler` propagates the NaN
the final `fillna(0.0)` gives every output row the score 0.0 (the run
completes). -/
theorem C4_amended :
    (∀ (popMax : Nat) (f : FeatureVec), 1 ≤ popMax → 0 ≤ f.active_days →
      score_raw_code popMax f = some (score_raw_spec popMax f)) ∧
    (∀ (f0 : FeatureVec) (rest : List FeatureVec) (order : List String),
      popUniqueMax (f0 :: rest) = 0 →
      ∃ out, score_wallets (f0 :: rest) order = .ok out ∧ ∀ p ∈ out, p.2 = 0) := by
  constructor
  · intro popMax f h1 h2
    have hp : popMax ≠ 0 := by omega
    rw [score_raw_code, if_neg hp]
    congr 1
    rw [scoreRawAt, score_raw_spec]
    have hmaxp : max popMax 1 = popMax := by omega
    have hdays : (if f.active_days = 0 then (1 : Rat) else (f.active_days : Rat))
        = ((max f.active_days 1 : Int) : Rat) := by
      by_cases h0 : f.active_days = 0
      · rw [if_pos h0, h0]
        norm_num
      · rw [if_neg h0]
        have : max f.active_days 1 = f.active_days := by omega
        rw [this]
    rw [hmaxp, hdays]
    ring
  · intro f0 rest order hpm
    refine ⟨mergeLeftFill ((f0 :: rest).map (fun f => (f.wallet, (0 : Rat)))) order,
      ?_, ?_⟩
    · simp only [score_wallets]
      rw [if_pos hpm]
    · intro p hp
      rcases mergeLeftFill_snd_cases hp with h0 | ⟨q, hq, hpq⟩
      · exact h0
      · rcases List.mem_map.mp hq with ⟨f, _, rfl⟩
        rw [hpq]

/-- C4 witness: the amended raw-score equation evaluated at the one-asset
fixture, and the NaN-to-0.0 completion at the zero-asset fixture. -/
theorem C4_witness :
    score_raw_code 1 fvOne = some (score_raw_spec 1 fvOne) ∧
    (∃ out, score_wallets [fvZero] ["a"] = .ok out ∧ ∀ p ∈ out, p.2 = 0) :=
  ⟨C4_amended.1 1 fvOne (by decide) (by decide),
   C4_amended.2 fvZero [] ["a"] (by decide)⟩

/-- C5: if every wallet of a non-empty feature population has the same
defined raw score, the rescaling step succeeds and maps every output score
to 0 instead of failing on the zero-width range. -/
theorem C5_constant_raw_scores (features : List FeatureVec) (order : List String)
    (r : Rat) (hne : features ≠ [])
    (hall : ∀ f ∈ features, score_raw_code (popUniqueMax features) f = some r) :
    ∃ out, score_wallets features order = .ok out ∧ ∀ p ∈ out, p.2 = 0 := by
  cases features with
  | nil => exact absurd rfl hne
  | cons f0 rest =>
    have hp : popUniqueMax (f0 :: rest) ≠ 0 := by
      intro h0
      have h1 := hall f0 (List.mem_cons_self f0 rest)
      rw [score_raw_code, if_pos h0] at h1
      cases h1
    refine ⟨mergeLeftFill (creditOf (f0 :: rest)) order, ?_, ?_⟩
    · simp only [score_wallets]
      rw [if_neg hp]
    · intro p hp2
      rcases mergeLeftFill_snd_cases hp2 with h0 | ⟨q, hq, hpq⟩
      · exact h0
      · rcases creditOf_snd hq with ⟨x, hx, hq2⟩
        have hallraw : ∀ y ∈ rawsOf (f0 :: rest), y = r := by
          intro y hy
          rcases List.mem_map.mp hy with ⟨pr, hpr, rfl⟩
          rcases List.mem_map.mp hpr with ⟨f, hf, rfl⟩
          have hf2 := hall f hf
          rw [score_raw_code, if_neg hp] at hf2
          exact Option.some.inj hf2
        have hraw_ne : rawsOf (f0 :: rest) ≠ [] := by
          simp [rawsOf, scoredOf]
        have hmin : listMinQ (rawsOf (f0 :: rest)) = r := listMinQ_const hraw_ne hallraw
        rw [hpq, hq2, hallraw x hx, mnOf, hmin]
        have hz : r * scaleOf (f0 :: rest) + (0 - r * scaleOf (f0 :: rest)) = 0 := by
          ring
        rw [hz]
        exact round2_zero

/-- C5 witness: a single-wallet population (constant raw score 13/20) maps
to the all-zero output. -/
theorem C5_witness :
    ∃ out, score_wallets [fvOne] ["a"] = .ok out ∧ ∀ p ∈ out, p.2 = 0 :=
  C5_constant_raw_scores [fvOne] ["a"] (13 / 20) (by decide) (by decide)

/-- C6: every score the pipeline outputs lies in [0, 1000] — both the
min-max rescaled scores of wallets with features and the filled 0.0 scores. -/
theorem C6_score_range (rawData : List RawTx) (csv order : List String)
    (out : List (String × Rat)) (h : pipeline rawData csv order = .ok out) :
    ∀ p ∈ out, 0 ≤ p.2 ∧ p.2 ≤ 1000 := by
  intro p hp
  obtain ⟨txs, hld, hsw⟩ := pipeline_ok_cases h
  rcases score_wallets_ok hsw with ⟨_, rfl⟩ | ⟨_, _, rfl⟩ | ⟨_, _, rfl⟩
  · rcases List.mem_map.mp hp with ⟨w, hw, rfl⟩
    norm_num
  · rcases mergeLeftFill_snd_cases hp with h0 | ⟨q, hq, hpq⟩
    · rw [h0]
      norm_num
    · rcases List.mem_map.mp hq with ⟨f, _, rfl⟩
      rw [hpq]
      norm_num
  · rcases mergeLeftFill_snd_cases hp with h0 | ⟨q, hq, hpq⟩
    · rw [h0]
      norm_num
    · rcases creditOf_snd hq with ⟨x, hx, hq2⟩
      rw [hpq, hq2]
      have hb := transform_bounds hx
      exact round2_bounds hb.1 hb.2

/-- C6 witness: instantiated at a concrete run whose first output row has
the extreme score 1000. -/
theorem C6_witness :
    0 ≤ (("0xabc", (1000 : Rat))).2 ∧ (("0xabc", (1000 : Rat))).2 ≤ 1000 :=
  C6_score_range rawFixA csvFixA (validWallets csvFixA)
    [("0xabc", 1000), ("0xdef", 0), ("0xghi", 0)] (by decide)
    ("0xabc", 1000) (by decide)

/-- C7 counterexample: a transaction with the negative decimal amount string
-5 at price 2 is accepted by the Normalizer and yields
`usd_value = -10 < 0`, violating the claimed invariant. -/
theorem C7_counterexample :
    load_data [mkTx "0xabc" 1 "supply" (.jstr "-5") (.jstr "2") "eth"] ["0xabc"]
      = .ok [⟨"0xabc", 1, "supply", -10, "eth"⟩] ∧
    (CanonTx.mk "0xabc" 1 "supply" (-10) "eth").usd_value < 0 := by decide

lemma computeUsd_nonneg {A P : JVal} {usd : Rat}
    (hA : ∀ q, pyDecimal A = .ok q → 0 ≤ q)
    (hP : ∀ q, pyDecimal P = .ok q → 0 ≤ q) :
    computeUsd A P = .ok usd → 0 ≤ usd := by
  unfold computeUsd
  cases hA2 : pyDecimal A with
  | error e =>
    cases e
    · intro h
      cases h
    · intro h
      have h0 := Except.ok.inj h
      rw [← h0]
  | ok amount =>
    cases hP2 : pyDecimal P with
    | error e =>
      cases e
      · intro h
        cases h
      · intro h
        have h0 := Except.ok.inj h
        rw [← h0]
    | ok price =>
      intro h
      have hup := Except.ok.inj h
      have ha : 0 ≤ amount := hA amount hA2
      have hpr : 0 ≤ price := hP price hP2
      rw [← hup]
      split_ifs
      · positivity
      · positivity

/-- C7 (amended): `usd_value ≥ 0` holds for every transaction the Normalizer
accepts whose amount and price parse to non-negative decimals (or fail with a
caught `TypeError`, yielding 0); amounts or prices given as negative decimal
strings instead produce a negative `usd_value`. -/
theorem C7_amended (valid : List String) (tx : RawTx) (c : CanonTx)
    (h : normalizeTx valid tx = .ok (some c))
    (hamt : ∀ q, pyDecimal
      ((tx.actionData.getD ⟨none, none, none⟩).amount.getD (.jstr "0")) = .ok q → 0 ≤ q)
    (hprc : ∀ q, pyDecimal
      ((tx.actionData.getD ⟨none, none, none⟩).assetPriceUSD.getD (.jstr "0")) = .ok q → 0 ≤ q) :
    0 ≤ c.usd_value := by
  simp only [normalizeTx] at h
  split at h
  · simp at h
  · split at h
    · simp at h
    · split at h
      · simp at h
      · simp at h
      · rename_i ts hts
        cases hc : computeUsd
            ((tx.actionData.getD ⟨none, none, none⟩).amount.getD (.jstr "0"))
            ((tx.actionData.getD ⟨none, none, none⟩).assetPriceUSD.getD (.jstr "0")) with
        | error e =>
          rw [hc] at h
          simp at h
        | ok usd =>
          rw [hc] at h
          simp only [Except.ok.injEq, Option.some.injEq] at h
          have hcv : c.usd_value = usd := by
            rw [← h]
          rw [hcv]
          exact computeUsd_nonneg hamt hprc hc

/-- C7 witness: the amended bound applied to a concrete accepted transaction
with non-negative amount and price. -/
theorem C7_witness : 0 ≤ (CanonTx.mk "0xabc" 1 "supply" 10 "eth").usd_value :=
  C7_amended ["0xabc"] (mkTx "0xabc" 1 "supply" (.jstr "5") (.jstr "2") "eth")
    (CanonTx.mk "0xabc" 1 "supply" 10 "eth") (by decide)
    (fun q hq => by
      rw [show pyDecimal ((((mkTx "0xabc" 1 "supply" (.jstr "5") (.jstr "2")
        "eth").actionData.getD ⟨none, none, none⟩).amount.getD (.jstr "0")))
        = .ok 5 from by decide] at hq
      have h5 := Except.ok.inj hq
      rw [← h5]
      norm_num)
    (fun q hq => by
      rw [show pyDecimal ((((mkTx "0xabc" 1 "supply" (.jstr "5") (.jstr "2")
        "eth").actionData.getD ⟨none, none, none⟩).assetPriceUSD.getD (.jstr "0")))
        = .ok 2 from by decide] at hq
      have h2 := Except.ok.inj hq
      rw [← h2]
      norm_num)

/-- C8 counterexample: a ledger whose single transaction carries the empty
asset symbol has `unique_assets = 1` in the code (pandas `nunique` counts the
empty string as a value) while the spec's distinct-non-empty count is 0. -/
theorem C8_counterexample :
    (featuresOf "a" [⟨"a", 1, "supply", 3, ""⟩]).unique_assets = 1 ∧
    uniqueAssetsSpec [⟨"a", 1, "supply", 3, ""⟩] = 0 ∧
    (featuresOf "a" [⟨"a", 1, "supply", 3, ""⟩]).unique_assets ≠
      uniqueAssetsSpec [⟨"a", 1, "supply", 3, ""⟩] := by decide

lemma dedup_length_filter_ne (l : List String) :
    l.dedup.length =
      (l.filter (fun a => a ≠ "")).dedup.length + (if "" ∈ l then 1 else 0) := by
  classical
  rw [← List.card_toFinset, ← List.card_toFinset, List.toFinset_filter]
  have hcongr : (l.toFinset.filter fun a => (decide ¬(a = "")) = true)
      = l.toFinset.filter (fun a => ¬(a = "")) := by
    apply Finset.filter_congr
    intro a _
    simp
  have hsplit := Finset.filter_card_add_filter_neg_card_eq_card
    (s := l.toFinset) (p := fun a => a = "")
  have hfe : l.toFinset.filter (fun a => a = "") = if "" ∈ l.toFinset then {""} else ∅ :=
    Finset.filter_eq' l.toFinset ""
  by_cases hmem : "" ∈ l
  · have hm2 : "" ∈ l.toFinset := List.mem_toFinset.mpr hmem
    rw [hcongr, if_pos hmem]
    rw [if_pos hm2] at hfe
    have h1 : (l.toFinset.filter (fun a => a = "")).card = 1 := by
      rw [hfe]
      rfl
    omega
  · have hm2 : "" ∉ l.toFinset := fun hh => hmem (List.mem_toFinset.mp hh)
    rw [hcongr, if_neg hmem]
    rw [if_neg hm2] at hfe
    have h1 : (l.toFinset.filter (fun a => a = "")).card = 0 := by
      rw [hfe]
      rfl
    omega

/-- C8 (amended): `unique_assets` counts the distinct asset-symbol values of
the ledger with the empty string treated as a value of its own: it equals the
number of distinct non-empty symbols plus one when any transaction carries
the empty symbol. -/
theorem C8_amended (w : String) (g : List CanonTx) :
    (featuresOf w g).unique_assets =
      uniqueAssetsSpec g + (if "" ∈ g.map (·.asset) then 1 else 0) := by
  have hfu : (featuresOf w g).unique_assets = (g.map (·.asset)).dedup.length := rfl
  rw [hfu, uniqueAssetsSpec]
  exact dedup_length_filter_ne _

/-- Two wallets with distinct activity, used for the determinism claim. -/
def rawFixB : List RawTx :=
  [mkTx "a" 1 "supply" (.jstr "10") (.jstr "1") "e",
   mkTx "b" 1 "borrow" (.jstr "5") (.jstr "1") "e"]

/-- C9 counterexample: both orders enumerate the same requested wallet set
(the two possible iteration orders of the Python set), yet the two runs
produce outputs that differ as lists (the rows appear in a different order),
so the output is not a function of the input files alone. -/
theorem C9_counterexample :
    (["a", "b"] : List String).Nodup ∧ (["b", "a"] : List String).Nodup ∧
    (["a", "b"] : List String).Perm (validWallets ["A", "b"]) ∧
    (["b", "a"] : List String).Perm (validWallets ["A", "b"]) ∧
    pipeline rawFixB ["A", "b"] ["a", "b"] ≠
      pipeline rawFixB ["A", "b"] ["b", "a"] := by decide

/-- C9 (amended): for a fixed transactions input and wallet file, two runs
whose set-iteration orders are permutations of each other fail identically,
and when they succeed they output the same rows with the same scores up to
row order (the multiset of records is deterministic; the row order follows
the unspecified set-iteration order). -/
theorem C9_amended (rawData : List RawTx) (csv : List String) (o1 o2 : List String)
    (hperm : o1.Perm o2) :
    (∀ e, pipeline rawData csv o1 = .error e → pipeline rawData csv o2 = .error e) ∧
    (∀ out1 out2, pipeline rawData csv o1 = .ok out1 →
      pipeline rawData csv o2 = .ok out2 → out1.Perm out2) := by
  constructor
  · intro e h1
    unfold pipeline at h1 ⊢
    cases hld : load_data rawData csv with
    | error e2 =>
      rw [hld] at h1
      exact h1
    | ok txs =>
      rw [hld] at h1
      have h1s : score_wallets (extract_features txs) o1 = .error e := h1
      show score_wallets (extract_features txs) o2 = .error e
      cases hfs : extract_features txs with
      | nil =>
        rw [hfs] at h1s
        simp [score_wallets] at h1s
      | cons f0 rest =>
        rw [hfs] at h1s
        simp only [score_wallets] at h1s ⊢
        by_cases hpm : popUniqueMax (f0 :: rest) = 0
        · rw [if_pos hpm] at h1s
          cases h1s
        · rw [if_neg hpm] at h1s
          cases h1s
  · intro out1 out2 h1 h2
    obtain ⟨txs, hld, hsw1⟩ := pipeline_ok_cases h1
    obtain ⟨txs2, hld2, hsw2⟩ := pipeline_ok_cases h2
    rw [hld] at hld2
    have htx : txs = txs2 := Except.ok.inj hld2
    subst htx
    rcases score_wallets_ok hsw1 with ⟨hfs1, rfl⟩ | ⟨hne1, hpm1, rfl⟩ | ⟨hne1, hpm1, rfl⟩
    · rw [hfs1] at hsw2
      have h22 : out2 = o2.map (fun w => (w, (0 : Rat))) := (Except.ok.inj hsw2).symm
      rw [h22]
      exact hperm.map _
    · rcases score_wallets_ok hsw2 with ⟨hfs2, _⟩ | ⟨_, _, rfl⟩ | ⟨_, hpm2, _⟩
      · exact absurd hfs2 hne1
      · exact mergeLeftFill_perm _ hperm
      · exact absurd hpm1 hpm2
    · rcases score_wallets_ok hsw2 with ⟨hfs2, _⟩ | ⟨_, hpm2, _⟩ | ⟨_, _, rfl⟩
      · exact absurd hfs2 hne1
      · exact absurd hpm2 hpm1
      · exact mergeLeftFill_perm _ hperm

/-- C9 witness: the amended statement instantiated at the two-wallet fixture
and the two iteration orders. -/
theorem C9_witness :
    ([("a", (0 : Rat)), ("b", 0)]).Perm [("b", 0), ("a", 0)] :=
  (C9_amended rawFixB ["A", "b"] ["a", "b"] ["b", "a"] (by decide)).2
    [("a", 0), ("b", 0)] [("b", 0), ("a", 0)] (by decide) (by decide)

/-- C10: when two rows of the wallet file agree after lower-casing, the run
produces exactly one output row keyed by the shared lower-cased identifier:
the requested set is built by lower-casing and set-deduplication. -/
theorem C10_lowercase_dedup (csv : List String) (i j : Nat)
    (hi : i < csv.length) (hj : j < csv.length) (_hij : i ≠ j)
    (_heq : pyLower (csv.get ⟨i, hi⟩) = pyLower (csv.get ⟨j, hj⟩))
    (rawData : List RawTx) (order : List String) (out : List (String × Rat))
    (ho : EnumOf csv order) (h : pipeline rawData csv order = .ok out) :
    (out.filter (fun p => p.1 == pyLower (csv.get ⟨i, hi⟩))).length = 1 := by
  have hwmem : pyLower (csv.get ⟨i, hi⟩) ∈ validWallets csv := by
    apply List.mem_dedup.mpr
    exact List.mem_map.mpr ⟨csv.get ⟨i, hi⟩, List.get_mem csv i hi, rfl⟩
  have hword : pyLower (csv.get ⟨i, hi⟩) ∈ order := (ho.2 _).mpr hwmem
  rw [filterKey_length_eq_count, pipeline_keys h]
  exact List.count_eq_one_of_mem ho.1 hword

/-- C10 witness: a wallet file with the same address in two spellings yields
one row keyed by the lower-cased address. -/
theorem C10_witness :
    (([("0xabc", (0 : Rat))]).filter
      (fun p => p.1 == pyLower (["0xAbC", "0xabc"].get ⟨0, by decide⟩))).length = 1 :=
  C10_lowercase_dedup ["0xAbC", "0xabc"] 0 1 (by decide) (by decide) (by decide)
    (by decide)
    [mkTx "0xabc" 1 "supply" (.jstr "10") (.jstr "1") "e"]
    (validWallets ["0xAbC", "0xabc"]) [("0xabc", 0)]
    (enumOf_validWallets _) (by decide)

end ClaimTheorems
